import Mathlib

/-!
Shallow embedding of the habit-tracking core of the dofixlist repository:
the Completion Ledger (SQL unique index `idx_habit_completions_unique_daily`
on `(habit_id, completion_date)` plus the insert path of `completeHabit`)
and the Progress Evaluator (`getStreak`, `getCompletionRate`,
`isHabitCompletedToday` from the Dashboard page).

Modeling conventions:
* Calendar dates are integer day numbers (`Int`); "today" is an explicit
  parameter.  Adding or subtracting 1 models the source's one-day steps
  (`setDate(getDate() - 1)` and `getTime() + 86400000`); the JS
  timezone/DST warts of mixing UTC parsing with local midnights are
  abstracted away, as the spec treats completion dates as calendar dates.
* Day numbers are aligned so that a day number divisible by 7 is a
  start-of-week day (date-fns `startOfWeek` with its default convention).
* Elapsed time since habit creation is a natural number of milliseconds
  (`Date.getTime` differences are integral); the JS number arithmetic of
  `getCompletionRate` (`Math.ceil`, `Math.round`, `/`) is modeled exactly
  over the integers/rationals.
* The fallible ledger insert returns `Except`; the evaluator functions are
  total Lean functions, reflecting that the source evaluator never throws.
-/

/-- Habit frequency, the `frequency IN ('daily', 'weekly')` column. -/
inductive Frequency where
  | daily
  | weekly
  deriving DecidableEq

/-- Row of `habit_completions` (core fields; `completed_at` timestamp and
the surrogate `id` are irrelevant to the claims). -/
structure Completion where
  habit_id : Nat
  user_id : Nat
  completion_date : Int
  notes : Option String
  deriving DecidableEq

/-- Error taxonomy of the Ledger: the unique-index violation surfaced by a
second insert for the same `(habit_id, completion_date)`. -/
inductive LedgerError where
  | DuplicateCompletion
  deriving DecidableEq

/-- Does the ledger already hold a completion for `(habitId, date)`?  This
is the storage-level lookup the unique index
`idx_habit_completions_unique_daily (habit_id, completion_date)` performs
on insert. -/
def hasCompletionFor (ledger : List Completion) (habitId : Nat) (date : Int) : Bool :=
  ledger.any fun c => c.habit_id == habitId && c.completion_date == date

/-- Ledger insert with the unique-index semantics: the `INSERT` into
`habit_completions` fails iff a row with the same
`(habit_id, completion_date)` already exists, otherwise the new row is
created and returned (the `completeHabit` insert path with
`notes` absent). -/
def recordCompletion (ledger : List Completion) (habitId userId : Nat) (date : Int) :
    Except LedgerError (Completion × List Completion) :=
  if hasCompletionFor ledger habitId date then
    Except.error LedgerError.DuplicateCompletion
  else
    let newRow : Completion := ⟨habitId, userId, date, none⟩
    Except.ok (newRow, newRow :: ledger)

/-- Insert one date into a descending-sorted list, keeping it descending. -/
def insertDesc (x : Int) : List Int → List Int
  | [] => [x]
  | y :: ys => if y ≤ x then x :: y :: ys else y :: insertDesc x ys

/-- Descending sort of the completion dates, the
`.sort((a, b) => b.getTime() - a.getTime())` of `getStreak`. -/
def sortDesc : List Int → List Int
  | [] => []
  | x :: xs => insertDesc x (sortDesc xs)

/-- Loop body of `getStreak`: iterate over the sorted `completions` array
(`remaining` is the part not yet visited), carrying `streak` and
`currentDate`.  In the daily case the three branches are
`completion == currentDate`, `completion == currentDate + one day` (with
its inner `streak === 0` re-check after moving `currentDate` back one
day), and `break`; in the weekly case `streak = completions.length; break`. -/
def streakLoop (freq : Frequency) (completions : List Int) :
    List Int → Nat → Int → Nat
  | [], streak, _ => streak
  | c :: rest, streak, currentDate =>
    match freq with
    | Frequency.daily =>
      if c = currentDate then
        streakLoop freq completions rest (streak + 1) (currentDate - 1)
      else if c = currentDate + 1 then
        if streak = 0 then
          if c = currentDate - 1 then
            streakLoop freq completions rest (streak + 1) (currentDate - 2)
          else
            streakLoop freq completions rest streak (currentDate - 1)
        else
          streakLoop freq completions rest streak currentDate
      else
        streak
    | Frequency.weekly => completions.length

/-- The Dashboard `getStreak`: 0 on an empty completion list, otherwise
run the loop over the dates sorted descending, starting from `today` with
streak 0. -/
def getStreak (today : Int) (freq : Frequency) (completionDates : List Int) : Nat :=
  if completionDates.length = 0 then 0
  else
    let completions := sortDesc completionDates
    streakLoop freq completions completions 0 today

/-- Milliseconds per day, the source's `1000 * 60 * 60 * 24`. -/
def msPerDay : Nat := 86400000

/-- The Dashboard `getCompletionRate`, with `elapsedMs` the difference
`new Date().getTime() - new Date(habit.created_at).getTime()` and
`completionsCount` the length of the habit's completion list.
`Math.ceil(elapsedMs / msPerDay)` is `(elapsedMs + msPerDay - 1) / msPerDay`
in natural division, `Math.ceil(d / 7)` is `(d + 6) / 7`, and
`Math.round(completions / Math.max(expected, 1) * 100)` (round half up)
is `(200 * completions + m) / (2 * m)` with `m = max expected 1`. -/
def getCompletionRate (elapsedMs : Nat) (freq : Frequency) (completionsCount : Nat) : Nat :=
  let daysSinceCreated := (elapsedMs + (msPerDay - 1)) / msPerDay
  let expectedCompletions :=
    match freq with
    | Frequency.daily => daysSinceCreated
    | Frequency.weekly => (daysSinceCreated + 6) / 7
  min 100 ((200 * completionsCount + max expectedCompletions 1) /
    (2 * max expectedCompletions 1))

/-- Start of the week containing day `t` (date-fns `startOfWeek`): the
largest multiple-of-7-aligned day number not exceeding `t`. -/
def startOfWeek (t : Int) : Int := t - t % 7

/-- End of the week containing day `t` (date-fns `endOfWeek`, at day
granularity): six days after the start of the week. -/
def endOfWeek (t : Int) : Int := startOfWeek t + 6

/-- The Dashboard `isHabitCompletedToday`: for a daily habit, some
completion date equals today; for a weekly habit, some completion date
lies in `[startOfWeek(now), endOfWeek(now)]` inclusive. -/
def isHabitCompletedToday (today : Int) (freq : Frequency)
    (completionDates : List Int) : Bool :=
  match freq with
  | Frequency.daily => completionDates.any fun c => c == today
  | Frequency.weekly => completionDates.any fun c =>
      decide (startOfWeek today ≤ c ∧ c ≤ endOfWeek today)

/-- Length of the consecutive run a descending-sorted date list realizes
starting at day `d`: used to characterize what the daily streak loop
computes. -/
def consecRun : List Int → Int → Nat
  | [], _ => 0
  | c :: rest, d => if c = d then consecRun rest (d - 1) + 1 else 0

/-- Completion rate as the spec states it, over exact rational arithmetic:
`min(100, round(100 * completions_count / max(expected_count, 1)))` with
`expected_count = ceil(elapsed_days)` for daily habits and
`ceil(elapsed_days / 7)` for weekly habits, where
`elapsed_days = elapsedMs / msPerDay` and `round` rounds half up. -/
def completionRateSpec (elapsedMs : Nat) (freq : Frequency)
    (completionsCount : Nat) : ℤ :=
  let elapsedDays : ℚ := (elapsedMs : ℚ) / (msPerDay : ℚ)
  let expectedCount : ℤ :=
    match freq with
    | Frequency.daily => ⌈elapsedDays⌉
    | Frequency.weekly => ⌈elapsedDays / 7⌉
  min 100 (round ((100 * (completionsCount : ℚ)) / (max (expectedCount : ℚ) 1)))

/-! Auxiliary facts about the descending insertion sort. -/

theorem insertDesc_perm (x : Int) (l : List Int) : (insertDesc x l).Perm (x :: l) := by
  induction l with
  | nil => exact List.Perm.refl _
  | cons y ys ih =>
    rw [insertDesc]
    by_cases h : y ≤ x
    · rw [if_pos h]
    · rw [if_neg h]
      exact (ih.cons y).trans (List.Perm.swap x y ys)

theorem sortDesc_perm (l : List Int) : (sortDesc l).Perm l := by
  induction l with
  | nil => exact List.Perm.refl _
  | cons x xs ih => exact (insertDesc_perm x (sortDesc xs)).trans (ih.cons x)

theorem mem_sortDesc {l : List Int} {a : Int} : a ∈ sortDesc l ↔ a ∈ l :=
  (sortDesc_perm l).mem_iff

theorem length_sortDesc (l : List Int) : (sortDesc l).length = l.length :=
  (sortDesc_perm l).length_eq

theorem pairwise_insertDesc {x : Int} {l : List Int}
    (h : l.Pairwise fun a b => b ≤ a) :
    (insertDesc x l).Pairwise fun a b => b ≤ a := by
  induction l with
  | nil => simp [insertDesc]
  | cons y ys ih =>
    rw [List.pairwise_cons] at h
    rw [insertDesc]
    by_cases hxy : y ≤ x
    · rw [if_pos hxy]
      refine List.pairwise_cons.mpr ⟨?_, List.pairwise_cons.mpr h⟩
      intro b hb
      rcases List.mem_cons.mp hb with hb | hb
      · exact hb ▸ hxy
      · exact le_trans (h.1 b hb) hxy
    · rw [if_neg hxy]
      refine List.pairwise_cons.mpr ⟨?_, ih h.2⟩
      intro b hb
      rcases List.mem_cons.mp ((insertDesc_perm x ys).mem_iff.mp hb) with hb | hb
      · exact hb ▸ le_of_not_le hxy
      · exact h.1 b hb

theorem pairwise_sortDesc (l : List Int) :
    (sortDesc l).Pairwise fun a b => b ≤ a := by
  induction l with
  | nil => simp [sortDesc]
  | cons x xs ih => exact pairwise_insertDesc ih

theorem pairwise_lt_sortDesc {l : List Int} (hnd : l.Nodup) :
    (sortDesc l).Pairwise fun a b => b < a := by
  have h1 := pairwise_sortDesc l
  have h2 : (sortDesc l).Nodup := (sortDesc_perm l).nodup_iff.mpr hnd
  exact (h1.and h2).imp fun hab => lt_of_le_of_ne hab.1 (Ne.symm hab.2)

/-! Characterization of the daily streak loop on realistic ledgers
(distinct dates, none in the future). -/

theorem streakLoop_daily_eq (comps : List Int) :
    ∀ (l : List Int), (l.Pairwise fun a b => b < a) →
      ∀ (s : Nat) (cd : Int), (∀ x ∈ l, x ≤ cd) →
        streakLoop Frequency.daily comps l s cd = s + consecRun l cd := by
  intro l
  induction l with
  | nil => intro _ s cd _; simp [streakLoop, consecRun]
  | cons c rest ih =>
    intro hp s cd hle
    rw [List.pairwise_cons] at hp
    rw [streakLoop, consecRun]
    by_cases hc : c = cd
    · rw [if_pos hc, if_pos hc]
      rw [ih hp.2 (s + 1) (cd - 1) fun x hx => by have := hp.1 x hx; omega]
      omega
    · have hlt : c < cd := lt_of_le_of_ne (hle c (List.mem_cons_self c rest)) hc
      rw [if_neg hc, if_neg (by omega : ¬c = cd + 1), if_neg hc]
      omega

theorem getStreak_daily_eq {l : List Int} {T : Int} (hnd : l.Nodup)
    (hle : ∀ x ∈ l, x ≤ T) :
    getStreak T Frequency.daily l = consecRun (sortDesc l) T := by
  rw [getStreak]
  by_cases h : l.length = 0
  · rw [if_pos h]
    rw [List.length_eq_zero] at h
    subst h
    rw [sortDesc, consecRun]
  · rw [if_neg h]
    show streakLoop Frequency.daily (sortDesc l) (sortDesc l) 0 T
      = consecRun (sortDesc l) T
    rw [streakLoop_daily_eq _ _ (pairwise_lt_sortDesc hnd) 0 T
      fun x hx => hle x (mem_sortDesc.mp hx)]
    exact Nat.zero_add _

theorem consecRun_mem (l : List Int) :
    ∀ (d : Int) (i : Nat), i < consecRun l d → d - (i : Int) ∈ l := by
  induction l with
  | nil => intro d i hi; rw [consecRun] at hi; omega
  | cons c rest ih =>
    intro d i hi
    rw [consecRun] at hi
    by_cases hc : c = d
    · rw [if_pos hc] at hi
      cases i with
      | zero =>
        have : d - ((0 : Nat) : Int) = c := by omega
        rw [this]
        exact List.mem_cons_self c rest
      | succ j =>
        have hj := ih (d - 1) j (by omega)
        have : d - ((j + 1 : Nat) : Int) = (d - 1) - (j : Int) := by push_cast; ring
        rw [this]
        exact List.mem_cons_of_mem c hj
    · rw [if_neg hc] at hi
      omega

theorem consecRun_next_not_mem (l : List Int) :
    (l.Pairwise fun a b => b < a) →
      ∀ (d : Int), (∀ x ∈ l, x ≤ d) → d - (consecRun l d : Int) ∉ l := by
  induction l with
  | nil => intro _ d _; exact List.not_mem_nil _
  | cons c rest ih =>
    intro hp d hle
    rw [List.pairwise_cons] at hp
    rw [consecRun]
    by_cases hc : c = d
    · rw [if_pos hc]
      intro hmem
      have hcast : d - ((consecRun rest (d - 1) + 1 : Nat) : Int)
          = (d - 1) - (consecRun rest (d - 1) : Int) := by push_cast; ring
      rw [hcast] at hmem
      rcases List.mem_cons.mp hmem with hmem | hmem
      · omega
      · exact ih hp.2 (d - 1) (fun x hx => by have := hp.1 x hx; omega) hmem
    · rw [if_neg hc]
      intro hmem
      rcases List.mem_cons.mp hmem with hmem | hmem
      · exact hc (by omega)
      · have h1 := hp.1 _ hmem
        have h2 := hle c (List.mem_cons_self c rest)
        omega

theorem consecRun_pos {l : List Int} (hp : l.Pairwise fun a b => b < a)
    {d : Int} (hle : ∀ x ∈ l, x ≤ d) (hd : d ∈ l) : 1 ≤ consecRun l d := by
  cases l with
  | nil => exact absurd hd (List.not_mem_nil d)
  | cons c rest =>
    rw [List.pairwise_cons] at hp
    rw [consecRun]
    by_cases hc : c = d
    · rw [if_pos hc]; omega
    · exfalso
      rcases List.mem_cons.mp hd with hmem | hmem
      · exact hc hmem.symm
      · have h1 := hp.1 _ hmem
        have h2 := hle c (List.mem_cons_self c rest)
        omega

theorem streakLoop_daily_le (comps : List Int) :
    ∀ (l : List Int) (s : Nat) (cd : Int),
      streakLoop Frequency.daily comps l s cd ≤ s + l.length := by
  intro l
  induction l with
  | nil => intro s cd; simp [streakLoop]
  | cons c rest ih =>
    intro s cd
    rw [streakLoop, List.length_cons]
    by_cases h1 : c = cd
    · rw [if_pos h1]
      have := ih (s + 1) (cd - 1)
      omega
    · rw [if_neg h1]
      by_cases h2 : c = cd + 1
      · rw [if_pos h2]
        by_cases h3 : s = 0
        · rw [if_pos h3]
          by_cases h4 : c = cd - 1
          · rw [if_pos h4]
            have := ih (s + 1) (cd - 2)
            omega
          · rw [if_neg h4]
            have := ih s (cd - 1)
            omega
        · rw [if_neg h3]
          have := ih s cd
          omega
      · rw [if_neg h2]
        omega

theorem rate_zero_aux (m : Nat) (hm : 1 ≤ m) :
    min 100 ((200 * 0 + m) / (2 * m)) = 0 := by
  have hdiv : (200 * 0 + m) / (2 * m) = 0 := Nat.div_eq_of_lt (by omega)
  rw [hdiv]
  simp

theorem rate_mono_aux (m c c' : Nat) (h : c ≤ c') :
    min 100 ((200 * c + m) / (2 * m)) ≤ min 100 ((200 * c' + m) / (2 * m)) :=
  min_le_min (le_refl 100) (Nat.div_le_div_right (by omega))

/-- C3: the source intends (per its own in-code comment "If we missed today
but completed yesterday, still count") that a run of completions ending
yesterday keeps the streak alive, but the grace branch compares the
completion against `currentDate + one day` (tomorrow) instead of
`currentDate - one day`, so it can never fire: completions on every day up
to yesterday but none today evaluate to streak 0, not the run length. -/
theorem streak_zero_without_today :
    getStreak 0 Frequency.daily [-1] = 0 ∧
      getStreak 0 Frequency.daily [-1, -2, -3] = 0 := by decide

/-- C5 counterexample: with completions on days -5, -1 and 0 (today), the
computed streak is 2, not 1 as claimed, because the backward walk from
today also consumes the completion on day -1. -/
theorem gapStreak_today_ne_one :
    getStreak 0 Frequency.daily [0, -1, -5] ≠ 1 := by decide

/-- C5 amended: for a daily habit whose only completions are on day -5 and
day -1 relative to today, the computed streak is 0; if the habit
additionally has a completion today, the computed streak is 2 (the
consecutive run formed by today and day -1). -/
theorem gapStreak_amended (T : Int) :
    getStreak T Frequency.daily [T - 1, T - 5] = 0 ∧
      getStreak T Frequency.daily [T, T - 1, T - 5] = 2 := by
  have hs1 : sortDesc [T - 1, T - 5] = [T - 1, T - 5] := by
    simp only [sortDesc, insertDesc]
    rw [if_pos (by omega : T - 5 ≤ T - 1)]
  have hs2 : sortDesc [T, T - 1, T - 5] = [T, T - 1, T - 5] := by
    simp only [sortDesc, insertDesc]
    rw [if_pos (by omega : T - 5 ≤ T - 1)]
    simp only [insertDesc]
    rw [if_pos (by omega : T - 1 ≤ T)]
  constructor
  · rw [getStreak, if_neg (by simp : ¬([T - 1, T - 5] : List Int).length = 0)]
    show streakLoop Frequency.daily (sortDesc [T - 1, T - 5])
      (sortDesc [T - 1, T - 5]) 0 T = 0
    rw [hs1, streakLoop]
    rw [if_neg (show ¬T - 1 = T by omega), if_neg (show ¬T - 1 = T + 1 by omega)]
  · rw [getStreak, if_neg (by simp : ¬([T, T - 1, T - 5] : List Int).length = 0)]
    show streakLoop Frequency.daily (sortDesc [T, T - 1, T - 5])
      (sortDesc [T, T - 1, T - 5]) 0 T = 2
    rw [hs2, streakLoop, if_pos rfl]
    rw [streakLoop, if_pos (show T - 1 = T - 1 from rfl)]
    rw [streakLoop]
    rw [if_neg (show ¬T - 5 = T - 1 - 1 by omega),
      if_neg (show ¬T - 5 = T - 1 - 1 + 1 by omega)]

/-- C4: for a daily habit over a realistic ledger (distinct completion
dates, none after today) whose completions include today, the streak is at
least 1, every one of the `streak` days walking backward from today has a
completion, and the day right after that run has none — i.e. the streak is
the count of consecutive completed days ending today, stopping at the
first gap; in particular completions on exactly the 3 most recent
consecutive days including today yield streak 3. -/
theorem daily_streak_backward_run (T : Int) (l : List Int) (hnd : l.Nodup)
    (hle : ∀ d ∈ l, d ≤ T) (hT : T ∈ l) :
    1 ≤ getStreak T Frequency.daily l ∧
      (∀ i : Nat, i < getStreak T Frequency.daily l → T - (i : Int) ∈ l) ∧
      T - (getStreak T Frequency.daily l : Int) ∉ l ∧
      getStreak 0 Frequency.daily [0, -1, -2] = 3 := by
  have heq := getStreak_daily_eq hnd hle
  have hps := pairwise_lt_sortDesc hnd
  have hles : ∀ x ∈ sortDesc l, x ≤ T := fun x hx => hle x (mem_sortDesc.mp hx)
  refine ⟨?_, ?_, ?_, by decide⟩
  · rw [heq]
    exact consecRun_pos hps hles (mem_sortDesc.mpr hT)
  · intro i hi
    rw [heq] at hi
    exact mem_sortDesc.mp (consecRun_mem (sortDesc l) T i hi)
  · rw [heq]
    intro hmem
    exact consecRun_next_not_mem (sortDesc l) hps T hles (mem_sortDesc.mpr hmem)

/-- C4 witness: the general theorem applied to today = 0 with completions
on the 3 most recent consecutive days. -/
theorem daily_streak_backward_run_w :
    1 ≤ getStreak 0 Frequency.daily [0, -1, -2] ∧
      (∀ i : Nat, i < getStreak 0 Frequency.daily [0, -1, -2] →
        (0 : Int) - (i : Int) ∈ ([0, -1, -2] : List Int)) ∧
      (0 : Int) - (getStreak 0 Frequency.daily [0, -1, -2] : Int) ∉
        ([0, -1, -2] : List Int) ∧
      getStreak 0 Frequency.daily [0, -1, -2] = 3 :=
  daily_streak_backward_run 0 [0, -1, -2] (by decide) (by decide) (by decide)

/-- C6: completion rate is monotone in the number of completions (elapsed
time and frequency held fixed), bounded by 100 (it is a natural number, so
also at least 0), and a habit created exactly 1 day ago with 5 completions
has rate 100, not 500. -/
theorem rate_monotone_bounded (elapsedMs : Nat) (freq : Frequency) (c c' : Nat)
    (h : c ≤ c') :
    getCompletionRate elapsedMs freq c ≤ getCompletionRate elapsedMs freq c' ∧
      getCompletionRate elapsedMs freq c ≤ 100 ∧
      getCompletionRate 86400000 Frequency.daily 5 = 100 := by
  refine ⟨?_, ?_, by decide⟩
  · cases freq <;> exact rate_mono_aux _ c c' h
  · cases freq <;> exact min_le_left _ _

/-- C6 witness: the theorem at elapsed 1 day, daily, 1 ≤ 2 completions. -/
theorem rate_monotone_bounded_w :
    getCompletionRate 86400000 Frequency.daily 1 ≤
        getCompletionRate 86400000 Frequency.daily 2 ∧
      getCompletionRate 86400000 Frequency.daily 1 ≤ 100 ∧
      getCompletionRate 86400000 Frequency.daily 5 = 100 :=
  rate_monotone_bounded 86400000 Frequency.daily 1 2 (by decide)

/-- C7: the "completed for current period" predicate holds for a daily
habit exactly when some completion date equals today, and for a weekly
habit exactly when some completion date lies in the current week
`[startOfWeek, endOfWeek]` inclusive. -/
theorem completedToday_iff (T : Int) (l : List Int) :
    (isHabitCompletedToday T Frequency.daily l = true ↔ ∃ c ∈ l, c = T) ∧
      (isHabitCompletedToday T Frequency.weekly l = true ↔
        ∃ c ∈ l, startOfWeek T ≤ c ∧ c ≤ endOfWeek T) := by
  constructor <;> simp [isHabitCompletedToday]

/-- C8: for a weekly habit with at least one completion, the computed
streak is simply the total number of completions, regardless of which
weeks they fall in. -/
theorem weekly_streak_eq_length (T : Int) (l : List Int) (h : l ≠ []) :
    getStreak T Frequency.weekly l = l.length := by
  rw [getStreak]
  have hlen : ¬l.length = 0 := fun h0 => h (List.length_eq_zero.mp h0)
  rw [if_neg hlen]
  show streakLoop Frequency.weekly (sortDesc l) (sortDesc l) 0 T = l.length
  cases hs : sortDesc l with
  | nil =>
    exfalso
    have hl := length_sortDesc l
    rw [hs] at hl
    simp at hl
    omega
  | cons c rest =>
    rw [streakLoop, ← hs]
    exact length_sortDesc l

/-- C8 witness: two completions in arbitrary weeks give weekly streak 2. -/
theorem weekly_streak_eq_length_w :
    getStreak 0 Frequency.weekly [3, 100] = ([3, 100] : List Int).length :=
  weekly_streak_eq_length 0 [3, 100] (by decide)

/-- C9: on an empty completion list the Evaluator yields streak 0,
completion rate 0, and "not completed this period"; all three Evaluator
functions are total Lean functions, matching that the source evaluator
never fails. -/
theorem evaluator_total_empty (T : Int) (freq : Frequency) (elapsedMs : Nat) :
    getStreak T freq [] = 0 ∧ getCompletionRate elapsedMs freq 0 = 0 ∧
      isHabitCompletedToday T freq [] = false := by
  refine ⟨rfl, ?_, by cases freq <;> rfl⟩
  cases freq <;> exact rate_zero_aux _ (le_max_right _ 1)

/-- C10: for every frequency and completion list the computed streak is a
natural number bounded by the number of completions. -/
theorem getStreak_le_length (T : Int) (freq : Frequency) (l : List Int) :
    getStreak T freq l ≤ l.length := by
  rw [getStreak]
  by_cases h : l.length = 0
  · rw [if_pos h]
    omega
  · rw [if_neg h]
    show streakLoop freq (sortDesc l) (sortDesc l) 0 T ≤ l.length
    cases freq with
    | daily =>
      have hb := streakLoop_daily_le (sortDesc l) (sortDesc l) 0 T
      rw [length_sortDesc] at hb
      omega
    | weekly =>
      cases hs : sortDesc l with
      | nil =>
        rw [streakLoop]
        omega
      | cons c rest =>
        rw [streakLoop, ← hs]
        exact Nat.le_of_eq (length_sortDesc l)

/-- C1: on a ledger with no completion for `(habitId, d)` (and at most one
completion per `(habit, date)` pair, the unique-index invariant), a first
`recordCompletion` succeeds and creates exactly one record for that pair,
the invariant is preserved, and a second call with identical arguments
fails with `DuplicateCompletion` — the error carries no new ledger, so the
ledger is unchanged. -/
theorem recordCompletion_idempotent (ledger : List Completion)
    (habitId userId : Nat) (d : Int)
    (hfresh : ∀ c ∈ ledger, ¬(c.habit_id = habitId ∧ c.completion_date = d))
    (hinv : ∀ (h' : Nat) (d' : Int),
      (ledger.countP fun c => c.habit_id == h' && c.completion_date == d') ≤ 1) :
    ∃ newRow ledger2,
      recordCompletion ledger habitId userId d = Except.ok (newRow, ledger2) ∧
      newRow.habit_id = habitId ∧ newRow.user_id = userId ∧
      newRow.completion_date = d ∧ ledger2 = newRow :: ledger ∧
      (ledger2.countP fun c => c.habit_id == habitId && c.completion_date == d) = 1 ∧
      (∀ (h' : Nat) (d' : Int),
        (ledger2.countP fun c => c.habit_id == h' && c.completion_date == d') ≤ 1) ∧
      recordCompletion ledger2 habitId userId d
        = Except.error LedgerError.DuplicateCompletion := by
  have hfalse : hasCompletionFor ledger habitId d = false := by
    rw [hasCompletionFor, List.any_eq_false]
    intro c hc
    rw [Bool.and_eq_true, beq_iff_eq, beq_iff_eq]
    exact hfresh c hc
  have h0 : (ledger.countP fun c =>
      c.habit_id == habitId && c.completion_date == d) = 0 := by
    rw [List.countP_eq_zero]
    intro c hc
    rw [Bool.and_eq_true, beq_iff_eq, beq_iff_eq]
    exact hfresh c hc
  refine ⟨⟨habitId, userId, d, none⟩, ⟨habitId, userId, d, none⟩ :: ledger,
    ?_, rfl, rfl, rfl, rfl, ?_, ?_, ?_⟩
  · rw [recordCompletion, hfalse]
    rfl
  · rw [List.countP_cons]
    simp only [beq_self_eq_true, Bool.and_self, if_pos]
    omega
  · intro h' d'
    rw [List.countP_cons]
    by_cases hmatch : ((habitId == h' && d == d') = true)
    · rw [if_pos hmatch]
      rw [Bool.and_eq_true, beq_iff_eq, beq_iff_eq] at hmatch
      obtain ⟨h1, h2⟩ := hmatch
      subst h1
      subst h2
      omega
    · rw [if_neg hmatch]
      have := hinv h' d'
      omega
  · have htrue : hasCompletionFor
        ((⟨habitId, userId, d, none⟩ : Completion) :: ledger) habitId d = true := by
      rw [hasCompletionFor, List.any_cons]
      simp
    rw [recordCompletion, htrue]
    rfl

/-- C1 witness: the theorem on the empty ledger with habit 1, user 2,
date 0. -/
theorem recordCompletion_idempotent_w :
    ∃ newRow ledger2,
      recordCompletion [] 1 2 0 = Except.ok (newRow, ledger2) ∧
      newRow.habit_id = 1 ∧ newRow.user_id = 2 ∧
      newRow.completion_date = 0 ∧ ledger2 = newRow :: [] ∧
      (ledger2.countP fun c => c.habit_id == 1 && c.completion_date == 0) = 1 ∧
      (∀ (h' : Nat) (d' : Int),
        (ledger2.countP fun c => c.habit_id == h' && c.completion_date == d') ≤ 1) ∧
      recordCompletion ledger2 1 2 0 = Except.error LedgerError.DuplicateCompletion :=
  recordCompletion_idempotent [] 1 2 0 (by simp) (by simp)

/-! Exact-arithmetic bridges between natural division and rational
floor/ceil/round, used to relate the code's integer formula to the spec's
real-valued one. -/

theorem floor_nat_div (a b : Nat) : ⌊(a : ℚ) / (b : ℚ)⌋ = ((a / b : ℕ) : ℤ) := by
  have h := Rat.floor_intCast_div_natCast (a : ℤ) b
  push_cast at h
  rw [h, ← Int.natCast_div]

theorem ceil_nat_div (a b : Nat) (hb : 0 < b) :
    ⌈(a : ℚ) / (b : ℚ)⌉ = (((a + (b - 1)) / b : ℕ) : ℤ) := by
  have hbQ : (0 : ℚ) < (b : ℚ) := by exact_mod_cast hb
  have hbZ : (0 : ℤ) < (b : ℤ) := by exact_mod_cast hb
  set z : ℤ := (((a + (b - 1)) / b : ℕ) : ℤ) with hz
  have hzval : z = ((a : ℤ) + (b : ℤ) - 1) / (b : ℤ) := by
    rw [hz, Int.natCast_div]
    congr 1
    push_cast [Nat.cast_sub hb]
    ring
  have h1 : z * (b : ℤ) ≤ (a : ℤ) + (b : ℤ) - 1 := by
    rw [hzval]; exact Int.ediv_mul_le _ hbZ.ne'
  have h2 : (a : ℤ) + (b : ℤ) - 1 < (z + 1) * (b : ℤ) := by
    rw [hzval]; exact Int.lt_ediv_add_one_mul_self _ hbZ
  have h3 : (a : ℤ) ≤ z * b := by
    have h2' := Int.lt_iff_add_one_le.mp h2
    nlinarith [h2']
  rw [Int.ceil_eq_iff]
  constructor
  · rw [lt_div_iff₀ hbQ]
    have h1Q : (z : ℚ) * b ≤ (a : ℚ) + b - 1 := by exact_mod_cast h1
    have hbQ1 : (1 : ℚ) ≤ b := by exact_mod_cast hb
    nlinarith [h1Q]
  · rw [div_le_iff₀ hbQ]
    exact_mod_cast h3

theorem round_eq_nat_div (c m : Nat) (hm : 0 < m) :
    round ((100 * (c : ℚ)) / (m : ℚ)) = (((200 * c + m) / (2 * m) : ℕ) : ℤ) := by
  have hmQ : (0 : ℚ) < (m : ℚ) := by exact_mod_cast hm
  rw [round_eq]
  have key : (100 * (c : ℚ)) / m + 1 / 2
      = ((200 * c + m : ℕ) : ℚ) / ((2 * m : ℕ) : ℚ) := by
    push_cast
    field_simp
    ring
  rw [key, floor_nat_div]

theorem rate_bridge (c n : Nat) :
    ((min 100 ((200 * c + max n 1) / (2 * max n 1)) : ℕ) : ℤ)
      = min 100 (round ((100 * (c : ℚ)) / (max ((n : ℤ) : ℚ) 1))) := by
  have hmax : (max ((n : ℤ) : ℚ) 1) = ((max n 1 : ℕ) : ℚ) := by
    push_cast
    rfl
  rw [hmax, round_eq_nat_div c (max n 1) (by omega)]
  push_cast
  rfl

/-- C2: the code's completion rate equals the spec formula
`min(100, round(100 * completions_count / max(expected_count, 1)))`, with
`expected_count = ceil(elapsed_days)` for a daily habit and
`ceil(elapsed_days / 7)` for a weekly habit, over exact arithmetic on the
elapsed milliseconds. -/
theorem rate_matches_spec (elapsedMs : Nat) (freq : Frequency) (c : Nat) :
    (getCompletionRate elapsedMs freq c : ℤ) = completionRateSpec elapsedMs freq c := by
  cases freq with
  | daily =>
    simp only [getCompletionRate, completionRateSpec]
    rw [ceil_nat_div elapsedMs msPerDay (by norm_num [msPerDay])]
    exact rate_bridge c _
  | weekly =>
    simp only [getCompletionRate, completionRateSpec]
    have hdiv7 : (elapsedMs : ℚ) / ((msPerDay : ℕ) : ℚ) / 7
        = (elapsedMs : ℚ) / ((604800000 : ℕ) : ℚ) := by
      rw [div_div]
      norm_num [msPerDay]
    rw [hdiv7, ceil_nat_div elapsedMs 604800000 (by norm_num)]
    have hnat : (elapsedMs + (604800000 - 1)) / 604800000
        = ((elapsedMs + (msPerDay - 1)) / msPerDay + 6) / 7 := by
      simp only [msPerDay]
      omega
    rw [hnat]
    exact rate_bridge c _

